import Mathlib

/-!
Verification of the slitting-plan optimizer core (`src/app.py`).

The core of the program is three functions:

* `knapsack weights values capacity` (app.py lines 89-101): builds the linear
  programming *relaxation* of the 0/1 knapsack — minimize `-values·x` subject
  to `weights·x <= capacity` and box bounds `0 <= x_i <= 1` — and hands it to
  `scipy.optimize.linprog(method='highs')`.  On success it returns the optimal
  objective value and the optimal vector `x`; when the LP is infeasible it
  raises `ValueError("Optimization failed")`.  We embed the *contract* of the
  LP solver: the returned `x` is characterized by `KnapsackLPSol` (a feasible
  point of the relaxation that maximizes `values·x`), and the call succeeds
  exactly when the relaxation has a feasible point.

* `optimize_slitting_patterns coils orders` (lines 104-119): for each coil in
  order, solves the relaxation with the order widths as weights, the order
  lengths as values and the coil width as capacity, then thresholds the
  relaxed solution at 0.5: `pattern = [widths[i] for i in range(len(x)) if
  x[i] > 0.5]` (line 116).  Because the solver's output is only determined up
  to LP optimality, the pure embedding `optimize_slitting_patterns` takes the
  per-coil solver outputs `xs` explicitly, constrained by `ValidSols`; the
  exception behaviour of the loop is embedded by
  `optimize_slitting_patternsE`, which aborts at the first coil whose
  relaxation is infeasible, exactly as the uncaught `ValueError` does.

* `minimize_shear_adjustments patterns` (lines 122-129): replaces each
  pattern's cut list by its ascending sort (`sorted(cuts)`), keeping the coil
  component untouched.

`update_output` (lines 147-240) runs the two stages inside one `try`/`except`
block; any exception makes it return an error string and no tables at all.
-/

/-- A coil record `(width, length)`, as produced by `itertuples` on the coils sheet. -/
abbrev Coil := ℚ × ℚ

/-- An order record `(width, length)`, as produced by `itertuples` on the orders sheet. -/
abbrev Order := ℚ × ℚ

/-- Dot product of two equally long lists, `weights·x`; the left-hand side of the
single inequality constraint `A_ub @ x <= b_ub` built at app.py lines 92-93. -/
def dotProd (w x : List ℚ) : ℚ := (List.zipWith (fun a b => a * b) w x).sum

/-- Feasible point of the LP relaxation solved by `knapsack` (app.py lines 89-97):
a vector of the right arity with every coordinate in the box `[0, 1]`
(`bounds = [(0, 1) for _ in range(n)]`, line 94) satisfying the capacity
constraint `weights·x <= capacity` (lines 92-93). -/
def FeasibleSol (weights : List ℚ) (capacity : ℚ) (x : List ℚ) : Prop :=
  x.length = weights.length ∧ (∀ q ∈ x, 0 ≤ q ∧ q ≤ 1) ∧ dotProd weights x ≤ capacity

/-- Contract of the vector `result.x` returned by `knapsack` on success (app.py
lines 97-99): `linprog` minimizes `(-values)·x` over the feasible box, so the
returned point is a feasible point of the relaxation maximizing `values·x`. -/
def KnapsackLPSol (weights values : List ℚ) (capacity : ℚ) (x : List ℚ) : Prop :=
  FeasibleSol weights capacity x ∧
    ∀ y, FeasibleSol weights capacity y → dotProd values y ≤ dotProd values x

/-- Line 116 of app.py: `pattern = [widths[i] for i in range(len(x)) if x[i] > 0.5]`. -/
def selectPattern (widths x : List ℚ) : List ℚ :=
  (widths.zip x).filterMap (fun p => if (1 : ℚ)/2 < p.2 then some p.1 else none)

/-- Total ordered length carried by the thresholded selection of line 116: the sum
of `lengths[i]` over the indices with `x[i] > 0.5`. -/
def selectedLength (lengths x : List ℚ) : ℚ :=
  ((lengths.zip x).filterMap (fun p => if (1 : ℚ)/2 < p.2 then some p.1 else none)).sum

/-- `minimize_shear_adjustments` (app.py lines 122-129): each `(coil, cuts)` pair
becomes `(coil, sorted(cuts))`; Python's `sorted` is the stable ascending sort,
embedded as `List.insertionSort (· ≤ ·)` (extensionally the unique ascending
reordering). -/
def minimize_shear_adjustments (patterns : List (Coil × List ℚ)) : List (Coil × List ℚ) :=
  patterns.map (fun p => (p.1, List.insertionSort (fun a b => a ≤ b) p.2))

/-- `optimize_slitting_patterns` (app.py lines 104-119), success path: the loop
body pairs each coil with the thresholded pattern obtained from the solver
output for that coil.  `xs` lists the vectors returned by the per-coil
`knapsack` calls (constrained by `ValidSols` below). -/
def optimize_slitting_patterns (coils orders : List (ℚ × ℚ)) (xs : List (List ℚ)) :
    List (Coil × List ℚ) :=
  List.zipWith (fun coil x => (coil, selectPattern (orders.map Prod.fst) x)) coils xs

/-- The constraint tying `optimize_slitting_patterns`'s explicit solver outputs to
the source: the `i`-th vector is an optimal solution of the relaxation for the
`i`-th coil, with the order widths as weights, order lengths as values, and
the coil width (`coil[0]`) as capacity (app.py lines 107-115). -/
def ValidSols (coils orders : List (ℚ × ℚ)) (xs : List (List ℚ)) : Prop :=
  xs.length = coils.length ∧
    ∀ i (hi : i < coils.length) (hx : i < xs.length),
      KnapsackLPSol (orders.map Prod.fst) (orders.map Prod.snd)
        (coils.get ⟨i, hi⟩).1 (xs.get ⟨i, hx⟩)

/-- The plan assembled by `update_output` on success (app.py lines 169-170 and the
two tables of lines 175-186): the patterns paired positionally with their
shear-adjusted versions. -/
def assemble_plan (coils orders : List (ℚ × ℚ)) (xs : List (List ℚ)) :
    List ((Coil × List ℚ) × (Coil × List ℚ)) :=
  (optimize_slitting_patterns coils orders xs).zip
    (minimize_shear_adjustments (optimize_slitting_patterns coils orders xs))

/-- Claim C7: for every list of patterns, the adjusted pattern produced by
`minimize_shear_adjustments` at each position carries exactly the same multiset
of cuts as the input pattern at that position — a permutation, with no
addition, removal, or value change. -/
theorem claim_C7 (ps : List (Coil × List ℚ)) :
    List.Forall₂ (fun p q => List.Perm q.2 p.2) ps (minimize_shear_adjustments ps) := by
  induction ps with
  | nil => exact List.Forall₂.nil
  | cons p ps ih => exact List.Forall₂.cons (List.perm_insertionSort _ _) ih

/-- Claim C8: every adjusted pattern produced by `minimize_shear_adjustments` has a
non-decreasing cuts sequence. -/
theorem claim_C8 (ps : List (Coil × List ℚ)) (q : Coil × List ℚ)
    (hq : q ∈ minimize_shear_adjustments ps) :
    List.Sorted (fun a b : ℚ => a ≤ b) q.2 := by
  simp only [minimize_shear_adjustments, List.mem_map] at hq
  obtain ⟨p, _, rfl⟩ := hq
  exact List.sorted_insertionSort _ _

/-- Witness for C8 at the concrete pattern list `[((1,1), [3,1,2])]`. -/
theorem claim_C8_witness :
    List.Sorted (fun a b : ℚ => a ≤ b)
      (((((1 : ℚ), (1 : ℚ)), [(1 : ℚ), 2, 3]) : Coil × List ℚ)).2 :=
  claim_C8 [((1, 1), [3, 1, 2])] (((1 : ℚ), (1 : ℚ)), [(1 : ℚ), 2, 3]) (by decide)

/-- Claim C10: `minimize_shear_adjustments` returns one output pair per input pair
(in order), and the `i`-th output pair carries exactly the coil value of the
`i`-th input pair — only the cuts component changes. -/
theorem claim_C10 (ps : List (Coil × List ℚ)) :
    (minimize_shear_adjustments ps).length = ps.length ∧
      List.Forall₂ (fun p q => q.1 = p.1) ps (minimize_shear_adjustments ps) := by
  refine ⟨List.length_map _ _, ?_⟩
  induction ps with
  | nil => exact List.Forall₂.nil
  | cons p ps ih => exact List.Forall₂.cons rfl ih

/-- The dot product of lists with nonnegative entries is nonnegative. -/
lemma dotProd_nonneg (w x : List ℚ) (hw : ∀ a ∈ w, 0 ≤ a) (hx : ∀ q ∈ x, 0 ≤ q) :
    0 ≤ dotProd w x := by
  induction w generalizing x with
  | nil => simp [dotProd]
  | cons a w ih =>
    cases x with
    | nil => simp [dotProd]
    | cons b x =>
      have h1 : 0 ≤ a * b := mul_nonneg (hw a (by simp)) (hx b (by simp))
      have h2 : 0 ≤ dotProd w x :=
        ih x (fun u hu => hw u (by simp [hu])) (fun q hq => hx q (by simp [hq]))
      have hd : dotProd (a :: w) (b :: x) = a * b + dotProd w x := by simp [dotProd]
      rw [hd]
      exact add_nonneg h1 h2

/-- The dot product of any list with the all-zero vector is zero. -/
lemma dotProd_replicate_zero (w : List ℚ) (n : ℕ) :
    dotProd w (List.replicate n 0) = 0 := by
  induction w generalizing n with
  | nil => simp [dotProd]
  | cons a w ih =>
    cases n with
    | zero => simp [dotProd]
    | succ n =>
      have hd : dotProd (a :: w) (List.replicate (n + 1) 0) =
          a * 0 + dotProd w (List.replicate n 0) := by
        simp [dotProd, List.replicate_succ]
      rw [hd, ih]
      ring

/-- When every weight is positive, a box-feasible vector with nonpositive weighted sum
selects nothing at the 0.5 threshold. -/
lemma selectPattern_eq_nil (w x : List ℚ) (hw : ∀ a ∈ w, 0 < a)
    (hx : ∀ q ∈ x, 0 ≤ q) (hdot : dotProd w x ≤ 0) :
    selectPattern w x = [] := by
  induction w generalizing x with
  | nil => simp [selectPattern]
  | cons a w ih =>
    cases x with
    | nil => simp [selectPattern]
    | cons b x =>
      have hb : 0 ≤ b := hx b (by simp)
      have ha : 0 < a := hw a (by simp)
      have hrest : 0 ≤ dotProd w x :=
        dotProd_nonneg w x (fun u hu => le_of_lt (hw u (by simp [hu])))
          (fun q hq => hx q (by simp [hq]))
      have hd : dotProd (a :: w) (b :: x) = a * b + dotProd w x := by simp [dotProd]
      rw [hd] at hdot
      have hab : a * b ≤ 0 := by linarith
      have hab0 : 0 ≤ a * b := mul_nonneg ha.le hb
      have hble : ¬ ((1 : ℚ)/2 < b) := by
        intro hb2
        nlinarith
      have hble2 : ¬ ((2 : ℚ)⁻¹ < b) := by
        rw [← one_div]
        exact hble
      have hstep : selectPattern (a :: w) (b :: x) = selectPattern w x := by
        simp [selectPattern, hble2]
      rw [hstep]
      exact ih x (fun u hu => hw u (by simp [hu])) (fun q hq => hx q (by simp [hq])) (by linarith)

/-- Claim C5: with an empty order list the relaxation is feasible (so `knapsack`
succeeds) and the thresholded pattern is empty whatever vector the solver
returns; with capacity zero and positive order widths the relaxation is
feasible (the zero vector) and every feasible vector the solver can return
thresholds to an empty pattern. -/
theorem claim_C5 (c : ℚ) (orders : List Order) (x y : List ℚ)
    (hc : 0 ≤ c) (hw : ∀ o ∈ orders, 0 < o.1)
    (hx : FeasibleSol (orders.map Prod.fst) 0 x) :
    (FeasibleSol ([] : List ℚ) c [] ∧ selectPattern [] y = []) ∧
      (FeasibleSol (orders.map Prod.fst) 0 (List.replicate orders.length 0) ∧
        selectPattern (orders.map Prod.fst) x = []) := by
  obtain ⟨hlen, hbox, hcap⟩ := hx
  have hwpos : ∀ a ∈ orders.map Prod.fst, 0 < a := by
    intro a ha
    obtain ⟨o, ho, rfl⟩ := List.mem_map.mp ha
    exact hw o ho
  refine ⟨⟨⟨rfl, by simp, ?_⟩, ?_⟩, ⟨⟨?_, ?_, ?_⟩, ?_⟩⟩
  · simpa [dotProd] using hc
  · simp [selectPattern]
  · simp
  · intro q hq
    rw [List.eq_of_mem_replicate hq]
    norm_num
  · rw [dotProd_replicate_zero]
  · exact selectPattern_eq_nil _ _ hwpos (fun q hq => (hbox q hq).1) hcap

/-- Witness for C5 at capacity `1`, orders `[(3, 5)]`, solver outputs `[0]` and `[7]`. -/
theorem claim_C5_witness :
    (FeasibleSol ([] : List ℚ) 1 [] ∧ selectPattern [] [(7 : ℚ)] = []) ∧
      (FeasibleSol ([((3 : ℚ), (5 : ℚ))].map Prod.fst) 0 (List.replicate 1 0) ∧
        selectPattern ([((3 : ℚ), (5 : ℚ))].map Prod.fst) [(0 : ℚ)] = []) :=
  claim_C5 1 [((3 : ℚ), (5 : ℚ))] [(0 : ℚ)] [(7 : ℚ)] (by norm_num)
    (by intro o ho; simp at ho; simp [ho])
    (by
      refine ⟨by simp, ?_, ?_⟩
      · intro q hq
        simp at hq
        simp [hq]
      · simp [dotProd])

/-- Claim C9: the plan assembled by `update_output` on a successful run has exactly
one `(pattern, adjusted pattern)` entry per input coil, and the `i`-th entry is
built for the `i`-th input coil (both components carry that coil). -/
theorem claim_C9 (coils orders : List (ℚ × ℚ)) (xs : List (List ℚ))
    (h : ValidSols coils orders xs) :
    (assemble_plan coils orders xs).length = coils.length ∧
      ∀ i (hi : i < coils.length) (hp : i < (assemble_plan coils orders xs).length),
        ((assemble_plan coils orders xs).get ⟨i, hp⟩).1.1 = coils.get ⟨i, hi⟩ ∧
          ((assemble_plan coils orders xs).get ⟨i, hp⟩).2.1 = coils.get ⟨i, hi⟩ := by
  have hlen : (assemble_plan coils orders xs).length = coils.length := by
    simp [assemble_plan, optimize_slitting_patterns, minimize_shear_adjustments, h.1]
  refine ⟨hlen, ?_⟩
  intro i hi hp
  have hixs : i < xs.length := by
    rw [h.1]
    exact hi
  constructor
  · simp [assemble_plan, optimize_slitting_patterns, minimize_shear_adjustments,
      List.getElem_zip, List.getElem_zipWith, List.getElem_map]
  · simp [assemble_plan, optimize_slitting_patterns, minimize_shear_adjustments,
      List.getElem_zip, List.getElem_zipWith, List.getElem_map]

/-- Witness for C9 at one coil `(1, 1)`, no orders, and the empty solver output. -/
theorem claim_C9_witness :
    (assemble_plan [((1 : ℚ), (1 : ℚ))] [] [[]]).length = [((1 : ℚ), (1 : ℚ))].length ∧
      ∀ i (hi : i < [((1 : ℚ), (1 : ℚ))].length)
        (hp : i < (assemble_plan [((1 : ℚ), (1 : ℚ))] [] [[]]).length),
        ((assemble_plan [((1 : ℚ), (1 : ℚ))] [] [[]]).get ⟨i, hp⟩).1.1 =
            [((1 : ℚ), (1 : ℚ))].get ⟨i, hi⟩ ∧
          ((assemble_plan [((1 : ℚ), (1 : ℚ))] [] [[]]).get ⟨i, hp⟩).2.1 =
            [((1 : ℚ), (1 : ℚ))].get ⟨i, hi⟩ :=
  claim_C9 [((1 : ℚ), (1 : ℚ))] [] [[]]
    ⟨rfl, by
      intro i hi hx
      simp at hi
      subst hi
      refine ⟨⟨rfl, by simp, by simp [dotProd]⟩, ?_⟩
      intro y hy
      have : y = [] := List.eq_nil_of_length_eq_zero (by simpa using hy.1)
      subst this
      simp⟩

/-- Modelled from the spec: brute-force enumeration of all subsets of the orders,
keeping those whose total width fits the capacity and taking the maximum total
length (the comparator the optimality property is stated against). -/
def bruteForceBest (orders : List Order) (capacity : ℚ) : ℚ :=
  (((orders.sublists).filter
      (fun s => decide ((s.map Prod.fst).sum ≤ capacity))).map
    (fun s => (s.map Prod.snd).sum)).foldr max 0

/-- A list of length four is an explicit four-element list. -/
lemma list_length_eq_four {α : Type} {x : List α} (h : x.length = 4) :
    ∃ a b c d, x = [a, b, c, d] := by
  rcases x with _ | ⟨a, _ | ⟨b, _ | ⟨c, _ | ⟨d, _ | ⟨e, t⟩⟩⟩⟩⟩ <;> simp at h
  exact ⟨a, b, c, d, rfl⟩

/-- Claim C1 fails on the code: with a coil of width `100` and two orders of width
`60` (lengths `10` each), every optimal solution of the relaxation has both
coordinates above the `0.5` threshold, so the produced pattern is `[60, 60]`,
whose total width `120` exceeds the coil width `100` — the capacity invariant
is violated by the thresholded LP relaxation of `knapsack`. -/
theorem claim_C1 (x : List ℚ)
    (hx : KnapsackLPSol [60, 60] [10, 10] 100 x) :
    selectPattern [60, 60] x = [60, 60] ∧
      ¬ ((selectPattern [60, 60] x).sum ≤ (100 : ℚ)) := by
  obtain ⟨⟨hlen, hbox, hcap⟩, hopt⟩ := hx
  obtain ⟨a, b, rfl⟩ := List.length_eq_two.mp (by simpa using hlen)
  have ha := hbox a (by simp)
  have hb := hbox b (by simp)
  have hcapE : (60 : ℚ) * a + (60 * b + 0) ≤ 100 := hcap
  have hfeas : FeasibleSol [60, 60] 100 [5/6, 5/6] := by
    refine ⟨by simp, ?_, ?_⟩
    · intro q hq
      fin_cases hq <;> norm_num
    · show (60 : ℚ) * (5/6) + (60 * (5/6) + 0) ≤ 100
      norm_num
  have hlow : ((10 : ℚ) * (5/6) + (10 * (5/6) + 0)) ≤ 10 * a + (10 * b + 0) :=
    hopt [5/6, 5/6] hfeas
  have ha2 : (2 : ℚ)⁻¹ < a := by
    rw [inv_eq_one_div]
    linarith
  have hb2 : (2 : ℚ)⁻¹ < b := by
    rw [inv_eq_one_div]
    linarith
  have hsel : selectPattern [60, 60] [a, b] = [60, 60] := by
    simp [selectPattern, ha2, hb2]
  refine ⟨hsel, ?_⟩
  rw [hsel]
  norm_num

/-- Witness for C1: `x = [5/6, 5/6]` is an optimal solution of the relaxation for
this instance. -/
theorem claim_C1_witness :
    selectPattern [(60 : ℚ), 60] [5/6, 5/6] = [60, 60] ∧
      ¬ ((selectPattern [(60 : ℚ), 60] [5/6, 5/6]).sum ≤ (100 : ℚ)) := by
  refine claim_C1 [5/6, 5/6] ⟨⟨by simp, ?_, ?_⟩, ?_⟩
  · intro q hq
    fin_cases hq <;> norm_num
  · show (60 : ℚ) * (5/6) + (60 * (5/6) + 0) ≤ 100
    norm_num
  · intro y hy
    obtain ⟨a, b, rfl⟩ := List.length_eq_two.mp (by simpa using hy.1)
    have ha := hy.2.1 a (by simp)
    have hb := hy.2.1 b (by simp)
    have hcapE : (60 : ℚ) * a + (60 * b + 0) ≤ 100 := hy.2.2
    show (10 : ℚ) * a + (10 * b + 0) ≤ 10 * (5/6) + (10 * (5/6) + 0)
    linarith

/-- Claim C2 fails on the code: with a coil of width `10` and orders
`[(10, 10), (6, 7)]`, the unique optimum of the relaxation is `x = [2/5, 1]`,
which thresholds to the selection `[6]` of total length `7`, while brute-force
enumeration shows the best feasible subset has total length `10`. -/
theorem claim_C2 (x : List ℚ)
    (hx : KnapsackLPSol [10, 6] [10, 7] 10 x) :
    selectedLength [10, 7] x = 7 ∧ bruteForceBest [(10, 10), (6, 7)] 10 = 10 ∧
      selectedLength [10, 7] x ≠ bruteForceBest [(10, 10), (6, 7)] 10 := by
  obtain ⟨⟨hlen, hbox, hcap⟩, hopt⟩ := hx
  obtain ⟨a, b, rfl⟩ := List.length_eq_two.mp (by simpa using hlen)
  have ha := hbox a (by simp)
  have hb := hbox b (by simp)
  have hcapE : (10 : ℚ) * a + (6 * b + 0) ≤ 10 := hcap
  have hfeas : FeasibleSol [10, 6] 10 [2/5, 1] := by
    refine ⟨by simp, ?_, ?_⟩
    · intro q hq
      simp at hq
      rcases hq with h | h <;> rw [h] <;> norm_num
    · show (10 : ℚ) * (2/5) + (6 * 1 + 0) ≤ 10
      norm_num
  have hlow : ((10 : ℚ) * (2/5) + (7 * 1 + 0)) ≤ 10 * a + (7 * b + 0) :=
    hopt [2/5, 1] hfeas
  have hb1 : b = 1 := le_antisymm hb.2 (by linarith)
  have ha1 : a = 2/5 := by
    subst hb1
    have h1 : a ≤ 2/5 := by linarith
    have h2 : 2/5 ≤ a := by linarith
    linarith
  subst hb1
  subst ha1
  have hsel : selectedLength [10, 7] [2/5, 1] = 7 := by
    norm_num [selectedLength, List.filterMap_cons]
  have hbfb : bruteForceBest [(10, 10), (6, 7)] 10 = 10 := by
    norm_num [bruteForceBest, List.sublists]
  refine ⟨hsel, hbfb, ?_⟩
  rw [hsel, hbfb]
  norm_num

/-- Witness for C2: `x = [2/5, 1]` is an optimal solution of the relaxation for
this instance. -/
theorem claim_C2_witness :
    selectedLength [(10 : ℚ), 7] [2/5, 1] = 7 ∧
      bruteForceBest [(10, 10), (6, 7)] 10 = 10 ∧
      selectedLength [(10 : ℚ), 7] [2/5, 1] ≠ bruteForceBest [(10, 10), (6, 7)] 10 := by
  refine claim_C2 [2/5, 1] ⟨⟨by simp, ?_, ?_⟩, ?_⟩
  · intro q hq
    simp at hq
    rcases hq with h | h <;> rw [h] <;> norm_num
  · show (10 : ℚ) * (2/5) + (6 * 1 + 0) ≤ 10
    norm_num
  · intro y hy
    obtain ⟨a, b, rfl⟩ := List.length_eq_two.mp (by simpa using hy.1)
    have ha := hy.2.1 a (by simp)
    have hb := hy.2.1 b (by simp)
    have hcapE : (10 : ℚ) * a + (6 * b + 0) ≤ 10 := hy.2.2
    show (10 : ℚ) * a + (7 * b + 0) ≤ 10 * (2/5) + (7 * 1 + 0)
    linarith

/-- Claim C3 fails on the code: with a coil of width `10` and a single order of
width `12` (length `5`), the unique optimum of the relaxation is `x = [5/6]`,
above the `0.5` threshold, so the width-`12` order is placed in the pattern
even though `12` alone exceeds the coil width `10`. -/
theorem claim_C3 (x : List ℚ) (hx : KnapsackLPSol [12] [5] 10 x) :
    selectPattern [12] x = [12] ∧ (10 : ℚ) < 12 := by
  obtain ⟨⟨hlen, hbox, hcap⟩, hopt⟩ := hx
  obtain ⟨a, rfl⟩ := List.length_eq_one.mp (by simpa using hlen)
  have ha := hbox a (by simp)
  have hcapE : (12 : ℚ) * a + 0 ≤ 10 := hcap
  have hfeas : FeasibleSol [12] 10 [5/6] := by
    refine ⟨by simp, ?_, ?_⟩
    · intro q hq
      simp at hq
      rw [hq]
      norm_num
    · show (12 : ℚ) * (5/6) + 0 ≤ 10
      norm_num
  have hlow : ((5 : ℚ) * (5/6) + 0) ≤ 5 * a + 0 := hopt [5/6] hfeas
  have ha2 : (2 : ℚ)⁻¹ < a := by
    rw [inv_eq_one_div]
    linarith
  refine ⟨by simp [selectPattern, ha2], by norm_num⟩

/-- Witness for C3: `x = [5/6]` is an optimal solution of the relaxation for this
instance. -/
theorem claim_C3_witness :
    selectPattern [(12 : ℚ)] [5/6] = [12] ∧ (10 : ℚ) < 12 := by
  refine claim_C3 [5/6] ⟨⟨by simp, ?_, ?_⟩, ?_⟩
  · intro q hq
    simp at hq
    rw [hq]
    norm_num
  · show (12 : ℚ) * (5/6) + 0 ≤ 10
    norm_num
  · intro y hy
    obtain ⟨a, rfl⟩ := List.length_eq_one.mp (by simpa using hy.1)
    have ha := hy.2.1 a (by simp)
    have hcapE : (12 : ℚ) * a + 0 ≤ 10 := hy.2.2
    show (5 : ℚ) * a + 0 ≤ 5 * (5/6) + 0
    linarith

/-- Claim C6: for the spec scenario (coil width `100`, orders
`[(30,5), (40,3), (50,6), (20,2)]`), the relaxation has the unique optimum
`x = [1, 0, 1, 1]`, so the solver selects exactly the cuts `{30, 50, 20}`
(total width `100`, total length `13`) and the adjusted pattern's cuts are
`[20, 30, 50]`. -/
theorem claim_C6 (len : ℚ) (x : List ℚ)
    (hx : KnapsackLPSol [30, 40, 50, 20] [5, 3, 6, 2] 100 x) :
    x = [1, 0, 1, 1] ∧
      selectPattern [30, 40, 50, 20] x = [30, 50, 20] ∧
      (selectPattern [30, 40, 50, 20] x).sum = 100 ∧
      selectedLength [5, 3, 6, 2] x = 13 ∧
      minimize_shear_adjustments [(((100 : ℚ), len), selectPattern [30, 40, 50, 20] x)] =
        [(((100 : ℚ), len), [20, 30, 50])] := by
  obtain ⟨⟨hlen, hbox, hcap⟩, hopt⟩ := hx
  obtain ⟨a, b, c, d, rfl⟩ := list_length_eq_four (by simpa using hlen)
  have ha := hbox a (by simp)
  have hb := hbox b (by simp)
  have hc := hbox c (by simp)
  have hd := hbox d (by simp)
  have hcapE : (30 : ℚ) * a + (40 * b + (50 * c + (20 * d + 0))) ≤ 100 := hcap
  have hfeas : FeasibleSol [30, 40, 50, 20] 100 [1, 0, 1, 1] := by
    refine ⟨by simp, ?_, ?_⟩
    · intro q hq
      fin_cases hq <;> norm_num
    · show (30 : ℚ) * 1 + (40 * 0 + (50 * 1 + (20 * 1 + 0))) ≤ 100
      norm_num
  have hlow : ((5 : ℚ) * 1 + (3 * 0 + (6 * 1 + (2 * 1 + 0)))) ≤
      5 * a + (3 * b + (6 * c + (2 * d + 0))) := hopt [1, 0, 1, 1] hfeas
  have ha1 : a = 1 := le_antisymm ha.2 (by linarith)
  have hb0 : b = 0 := le_antisymm (by linarith) hb.1
  have hc1 : c = 1 := le_antisymm hc.2 (by linarith)
  have hd1 : d = 1 := le_antisymm hd.2 (by linarith)
  subst ha1
  subst hb0
  subst hc1
  subst hd1
  have hsel : selectPattern [30, 40, 50, 20] [1, 0, 1, 1] = [30, 50, 20] := by
    norm_num [selectPattern, List.filterMap_cons]
  have hsort : List.insertionSort (fun a b : ℚ => a ≤ b) [30, 50, 20] = [20, 30, 50] := by
    decide
  refine ⟨rfl, hsel, ?_, ?_, ?_⟩
  · rw [hsel]
    norm_num
  · norm_num [selectedLength, List.filterMap_cons]
  · rw [hsel]
    simp only [minimize_shear_adjustments, List.map_cons, List.map_nil]
    rw [hsort]

/-- Witness for C6: `x = [1, 0, 1, 1]` is an optimal solution of the relaxation for
the scenario instance. -/
theorem claim_C6_witness :
    ([(1 : ℚ), 0, 1, 1] : List ℚ) = [1, 0, 1, 1] ∧
      selectPattern [30, 40, 50, 20] [(1 : ℚ), 0, 1, 1] = [30, 50, 20] ∧
      (selectPattern [30, 40, 50, 20] [(1 : ℚ), 0, 1, 1]).sum = 100 ∧
      selectedLength [5, 3, 6, 2] [(1 : ℚ), 0, 1, 1] = 13 ∧
      minimize_shear_adjustments
          [(((100 : ℚ), (77 : ℚ)), selectPattern [30, 40, 50, 20] [(1 : ℚ), 0, 1, 1])] =
        [(((100 : ℚ), (77 : ℚ)), [20, 30, 50])] := by
  refine claim_C6 77 [1, 0, 1, 1] ⟨⟨by simp, ?_, ?_⟩, ?_⟩
  · intro q hq
    fin_cases hq <;> norm_num
  · show (30 : ℚ) * 1 + (40 * 0 + (50 * 1 + (20 * 1 + 0))) ≤ 100
    norm_num
  · intro y hy
    obtain ⟨a, b, c, d, rfl⟩ := list_length_eq_four (by simpa using hy.1)
    have ha := hy.2.1 a (by simp)
    have hb := hy.2.1 b (by simp)
    have hc := hy.2.1 c (by simp)
    have hd := hy.2.1 d (by simp)
    have hcapE : (30 : ℚ) * a + (40 * b + (50 * c + (20 * d + 0))) ≤ 100 := hy.2.2
    show (5 : ℚ) * a + (3 * b + (6 * c + (2 * d + 0))) ≤
      5 * 1 + (3 * 0 + (6 * 1 + (2 * 1 + 0)))
    linarith

/-- Success test of the `linprog` call in `knapsack` (app.py lines 97-98): the
box-constrained relaxation is feasible (hence `result.success`) exactly when
the sum of the negative parts of the weights is at most the capacity; with no
negative weight this is `0 <= capacity`.  `knapsackFeasibleB_iff` below proves
this Boolean equivalent to the existence of a feasible point. -/
def knapsackFeasibleB (weights : List ℚ) (capacity : ℚ) : Bool :=
  decide ((weights.map (fun v => min v 0)).sum ≤ capacity)

/-- `optimize_slitting_patterns` with its exception path (app.py lines 104-119):
the loop solves coils left to right; the first coil whose relaxation is
infeasible makes `knapsack` raise `ValueError("Optimization failed")`, which
propagates and discards all earlier results.  `xs` supplies the solver outputs
for the successful calls, consumed one per coil. -/
def optimize_slitting_patternsE :
    List (ℚ × ℚ) → List (ℚ × ℚ) → List (List ℚ) → Except String (List (Coil × List ℚ))
  | [], _, _ => .ok []
  | c :: cs, orders, xs =>
    if knapsackFeasibleB (orders.map Prod.fst) c.1 then
      match optimize_slitting_patternsE cs orders xs.tail with
      | .ok rest => .ok ((c, selectPattern (orders.map Prod.fst) (xs.headD [])) :: rest)
      | .error e => .error e
    else .error "Optimization failed"

/-- `update_output`'s computation core (app.py lines 154-240): the whole run sits
in one `try` block, so an exception from any coil's solve makes the callback
return the error branch (line 239-240) — an error message and no plan at all. -/
def update_output (coils orders : List (ℚ × ℚ)) (xs : List (List ℚ)) :
    Except String (List ((Coil × List ℚ) × (Coil × List ℚ))) :=
  match optimize_slitting_patternsE coils orders xs with
  | .ok patterns => .ok (patterns.zip (minimize_shear_adjustments patterns))
  | .error e => .error e

/-- The dot product against the indicator of the negative weights equals the sum of
the negative parts. -/
lemma dotProd_negparts (w : List ℚ) :
    dotProd w (w.map (fun v => if v < 0 then (1 : ℚ) else 0)) =
      (w.map (fun v => min v 0)).sum := by
  induction w with
  | nil => rfl
  | cons a w ih =>
    rcases lt_or_le a 0 with h | h
    · simp [dotProd, h, min_eq_left h.le]
      simpa [dotProd] using ih
    · simp [dotProd, not_lt.mpr h, min_eq_right h]
      simpa [dotProd] using ih

/-- Over the box `[0, 1]`, the weighted sum is at least the sum of the negative
parts of the weights. -/
lemma negparts_le_dotProd (w x : List ℚ) (hlen : x.length = w.length)
    (hbox : ∀ q ∈ x, 0 ≤ q ∧ q ≤ 1) :
    (w.map (fun v => min v 0)).sum ≤ dotProd w x := by
  induction w generalizing x with
  | nil => simp [dotProd]
  | cons a w ih =>
    cases x with
    | nil => simp at hlen
    | cons b x =>
      have hb := hbox b (by simp)
      have h1 : min a 0 ≤ a * b := by
        rcases lt_or_le a 0 with h | h
        · have : a * b ≥ a * 1 := by nlinarith [hb.2]
          calc min a 0 = a := min_eq_left h.le
            _ = a * 1 := by ring
            _ ≤ a * b := by nlinarith [hb.2]
        · calc min a 0 = 0 := min_eq_right h
            _ ≤ a * b := mul_nonneg h hb.1
      have h2 := ih x (by simpa using hlen) (fun q hq => hbox q (by simp [hq]))
      have hd : dotProd (a :: w) (b :: x) = a * b + dotProd w x := by simp [dotProd]
      rw [hd, List.map_cons, List.sum_cons]
      exact add_le_add h1 h2

/-- `knapsackFeasibleB` is exactly feasibility of the relaxed LP: `linprog`
succeeds if and only if some box point satisfies the capacity constraint. -/
lemma knapsackFeasibleB_iff (w : List ℚ) (c : ℚ) :
    knapsackFeasibleB w c = true ↔ ∃ x, FeasibleSol w c x := by
  simp only [knapsackFeasibleB, decide_eq_true_eq]
  constructor
  · intro h
    refine ⟨w.map (fun v => if v < 0 then (1 : ℚ) else 0), by simp, ?_, ?_⟩
    · intro q hq
      obtain ⟨v, _, rfl⟩ := List.mem_map.mp hq
      split <;> norm_num
    · rw [dotProd_negparts]
      exact h
  · rintro ⟨x, hlen, hbox, hcap⟩
    exact le_trans (negparts_le_dotProd w x hlen hbox) hcap

/-- Claim C4 fails on the code: with coils `[(-1, 1), (100, 1)]` and the single
order `(30, 5)`, the first coil's relaxation is infeasible (no box point has a
nonnegative weighted sum at most `-1`), so `knapsack` raises; the `try`/`except`
of `update_output` turns the whole run into a single error — the second coil is
never solved and no per-slot failure marker appears in any plan. -/
theorem claim_C4 :
    (¬ ∃ x, FeasibleSol ([(((30 : ℚ), (5 : ℚ)))].map Prod.fst) (-1) x) ∧
      ∀ xs, update_output [((-1 : ℚ), (1 : ℚ)), ((100 : ℚ), (1 : ℚ))] [((30 : ℚ), (5 : ℚ))] xs =
        .error "Optimization failed" := by
  constructor
  · intro hex
    have h : knapsackFeasibleB [(30 : ℚ)] (-1) = true :=
      (knapsackFeasibleB_iff [(30 : ℚ)] (-1)).mpr (by simpa using hex)
    norm_num [knapsackFeasibleB] at h
  · intro xs
    have hfail : knapsackFeasibleB [(30 : ℚ)] (-1) = false := by
      norm_num [knapsackFeasibleB]
    simp [update_output, optimize_slitting_patternsE, hfail]
